import Mathlib

/-!
Shallow embedding of `src/oneaway.py` (the `oneaway` typo-variant generator).

Tokens are modelled as `List Char`. Python string slicing `value[0:p]` /
`value[p+1:]` becomes `List.take` / `List.drop`; `str.partition(c)` splits at
the first occurrence of `c` and becomes `takeWhile` / `dropWhile`. A Python
generator that yields strings and may raise mid-iteration is modelled as a
`Trace`: the list of yielded variants in order, together with `none` for
normal exhaustion or `some e` for a raised `ValueError`. Python's per-call
`seen` set is tracked through the list of already-yielded variants (an
element is added to `seen` exactly when it is yielded, so membership in the
output list coincides with membership in `seen`). `str.isspace`,
`str.islower`, `str.isupper`, `str.upper` and `str.lower` on the single
characters involved are modelled by the corresponding ASCII `Char`
operations; every claim below concerns ASCII tokens, where the two agree.
Each loop over `range(len(value))` / `enumerate(value)` is translated as
structural recursion over the suffix of the token that remains to be
visited, keeping the current position as an extra argument where the body
uses it.
-/

namespace Oneaway

/-- The two `ValueError` shapes raised by `oneaway.py`: the whitespace
validation error, and the unsupported-character error. -/
inductive OneawayError where
  | whitespace
  | unsupported
  deriving DecidableEq, Repr

/-- Result of running one Python generator to completion (or up to its
raised error): the variants yielded in order, and how iteration ended. -/
structure Trace where
  out : List (List Char)
  result : Option OneawayError
  deriving DecidableEq, Repr

/-- Folds the `if new_value not in seen: yield new_value; seen.add(new_value)`
dedup-and-yield step of `oneaway.py` over a list of candidate variants,
extending the accumulated output list. -/
def dedupAppend (acc : List (List Char)) (l : List (List Char)) : List (List Char) :=
  l.foldl (fun acc x => if x ∈ acc then acc else acc ++ [x]) acc

/-- Deduplicated output sequence for a list of candidate variants, keeping
the first occurrence of each duplicate, starting from an empty seen set. -/
def dedupList (l : List (List Char)) : List (List Char) :=
  dedupAppend [] l

/-- Loop body of `dropped_letter` (`oneaway.py` lines 30-45): visits the
remaining characters left to right, raising on whitespace, otherwise
yielding `value[0:position] + value[position+1:]` if unseen. -/
def droppedGo (value : List Char) : Nat → List Char → List (List Char) → Trace
  | _, [], out => ⟨out, none⟩
  | position, char :: restChars, out =>
    if char.isWhitespace then
      ⟨out, some OneawayError.whitespace⟩
    else
      let new_value := value.take position ++ value.drop (position + 1)
      droppedGo value (position + 1) restChars
        (if new_value ∈ out then out else out ++ [new_value])

/-- Model of `dropped_letter` (`oneaway.py` lines 27-45). -/
def dropped_letter (value : List Char) : Trace :=
  droppedGo value 0 value []

/-- Loop body of `swapped_letter` (`oneaway.py` lines 51-68): while a pair
`(thischar, nextchar)` exists, raises if either is whitespace, otherwise
yields the token with the pair transposed if unseen; terminates normally
when fewer than two characters remain (the `except IndexError: break`). -/
def swappedGo (value : List Char) : Nat → List Char → List (List Char) → Trace
  | position, thischar :: nextchar :: restChars, out =>
    if thischar.isWhitespace || nextchar.isWhitespace then
      ⟨out, some OneawayError.whitespace⟩
    else
      let new_value :=
        value.take position ++ [nextchar, thischar] ++ value.drop (position + 2)
      swappedGo value (position + 1) (nextchar :: restChars)
        (if new_value ∈ out then out else out ++ [new_value])
  | _, _, out => ⟨out, none⟩

/-- Model of `swapped_letter` (`oneaway.py` lines 48-68). -/
def swapped_letter (value : List Char) : Trace :=
  swappedGo value 0 value []

/-- The per-character case inversion used by `swapped_casing` (lines
105-115): lowercase goes to uppercase, uppercase to lowercase, and any
uncased character is unsupported (`none` models the raised error branch). -/
def swapCase (c : Char) : Option Char :=
  if c.isLower then some c.toUpper
  else if c.isUpper then some c.toLower
  else none

/-- First component of Python's `value.partition(c)`: the prefix before the
first occurrence of `c`. -/
def partitionBefore (value : List Char) (c : Char) : List Char :=
  value.takeWhile (fun x => x != c)

/-- Third component of Python's `value.partition(c)`: everything after the
first occurrence of `c`. -/
def partitionAfter (value : List Char) (c : Char) : List Char :=
  (value.dropWhile (fun x => x != c)).drop 1

/-- Loop body of `swapped_casing` (`oneaway.py` lines 85-119): for each
character, raises on whitespace, raises on an uncased character, otherwise
yields `before + replacement + after` (with `before, dropped, after =
value.partition(char)`, i.e. split at the FIRST occurrence of the
character) if unseen. -/
def casingGo (value : List Char) : List Char → List (List Char) → Trace
  | [], out => ⟨out, none⟩
  | char :: restChars, out =>
    if char.isWhitespace then
      ⟨out, some OneawayError.whitespace⟩
    else
      match swapCase char with
      | none => ⟨out, some OneawayError.unsupported⟩
      | some replacement =>
        let new_value :=
          partitionBefore value char ++ [replacement] ++ partitionAfter value char
        casingGo value restChars
          (if new_value ∈ out then out else out ++ [new_value])

/-- Model of `swapped_casing` (`oneaway.py` lines 71-119). -/
def swapped_casing (value : List Char) : Trace :=
  casingGo value value []

/-- The `Proximities.QWERTY_HORIZONTAL` adjacency dict (`oneaway.py` lines
123-155), as an association list in the dict's insertion order. -/
def horizontalTable : List (Char × List Char) :=
  [('q', ['w']), ('w', ['q', 'e']), ('e', ['w', 'r']), ('r', ['e', 't']),
   ('t', ['r', 'y']), ('y', ['t', 'u']), ('u', ['y', 'i']), ('i', ['u', 'o']),
   ('o', ['i', 'p']), ('p', ['o']),
   ('a', ['s']), ('s', ['a', 'd']), ('d', ['s', 'f']), ('f', ['d', 'g']),
   ('g', ['f', 'h']), ('h', ['g', 'j']), ('j', ['h', 'k']), ('k', ['j', 'l']),
   ('l', ['k']),
   ('z', ['x']), ('x', ['z', 'c']), ('c', ['x', 'v']), ('v', ['c', 'b']),
   ('b', ['v', 'n']), ('n', ['b', 'm']), ('m', ['n'])]

/-- The `Proximities.QWERTY_VERTICAL` adjacency dict (`oneaway.py` lines
157-189), as an association list in the dict's insertion order. -/
def verticalTable : List (Char × List Char) :=
  [('q', ['a']), ('w', ['a', 's']), ('e', ['s', 'd']), ('r', ['d', 'f']),
   ('t', ['f', 'g']), ('y', ['g', 'h']), ('u', ['h', 'j']), ('i', ['j', 'k']),
   ('o', ['k', 'l']), ('p', ['l']),
   ('a', ['q', 'w', 'z']), ('s', ['w', 'e', 'z', 'x']), ('d', ['e', 'r', 'x', 'c']),
   ('f', ['r', 't', 'c', 'v']), ('g', ['t', 'y', 'v', 'b']), ('h', ['y', 'u', 'b', 'n']),
   ('j', ['u', 'i', 'n', 'm']), ('k', ['i', 'o', 'm']), ('l', ['o', 'p']),
   ('z', ['a', 's']), ('x', ['s', 'd']), ('c', ['d', 'f']), ('v', ['f', 'g']),
   ('b', ['g', 'h']), ('n', ['h', 'j']), ('m', ['j', 'k'])]

/-- The `Proximities` enum (`oneaway.py` lines 122-189). -/
inductive Proximities where
  | QWERTY_HORIZONTAL
  | QWERTY_VERTICAL
  deriving DecidableEq, Repr

/-- The `.value` of each `Proximities` member: its adjacency table. -/
def Proximities.value : Proximities → List (Char × List Char)
  | .QWERTY_HORIZONTAL => horizontalTable
  | .QWERTY_VERTICAL => verticalTable

/-- Loop body of `proximity_typo` (`oneaway.py` lines 195-213): for each
character, raises on whitespace, raises if the character has no entry in
the layout table, otherwise dedup-yields `before + replacement + after`
(partition at the FIRST occurrence of the character) for each neighbor
in table order. -/
def proximityGo (value : List Char) (layout : Proximities) :
    List Char → List (List Char) → Trace
  | [], out => ⟨out, none⟩
  | letter :: restChars, out =>
    if letter.isWhitespace then
      ⟨out, some OneawayError.whitespace⟩
    else
      match layout.value.lookup letter with
      | none => ⟨out, some OneawayError.unsupported⟩
      | some neighbors =>
        proximityGo value layout restChars
          (dedupAppend out
            (neighbors.map (fun r =>
              partitionBefore value letter ++ [r] ++ partitionAfter value letter)))

/-- Model of `proximity_typo` (`oneaway.py` lines 192-213). -/
def proximity_typo (value : List Char) (layout : Proximities) : Trace :=
  proximityGo value layout value []

/-- Model of `horizontal_proximity_typo` (`oneaway.py` lines 216-218). -/
def horizontal_proximity_typo (value : List Char) : Trace :=
  proximity_typo value Proximities.QWERTY_HORIZONTAL

/-- Model of `vertical_proximity_typo` (`oneaway.py` lines 219-221). -/
def vertical_proximity_typo (value : List Char) : Trace :=
  proximity_typo value Proximities.QWERTY_VERTICAL

/-- Loop body of `multiple` (`oneaway.py` lines 229-234): drains each
handler's full trace in list order into the shared seen set; if a handler
raised, that error propagates after the handler's prior yields were
merged. -/
def multipleGo (value : List Char) :
    List (List Char → Trace) → List (List Char) → Trace
  | [], out => ⟨out, none⟩
  | handler :: rest, out =>
    let t := handler value
    let merged := dedupAppend out t.out
    match t.result with
    | some e => ⟨merged, some e⟩
    | none => multipleGo value rest merged

/-- Model of `multiple` (`oneaway.py` lines 224-234). -/
def multiple (value : List Char) (handlers : List (List Char → Trace)) : Trace :=
  multipleGo value handlers []

/-- Model of the `common` preset (`oneaway.py` lines 237-245). -/
def common (value : List Char) : Trace :=
  multiple value [dropped_letter, swapped_letter, horizontal_proximity_typo]

/-- Model of the `mix` preset (`oneaway.py` lines 247-256; `aggregate`,
`amalgam` and `solution` are aliases of the same partial application). -/
def mix (value : List Char) : Trace :=
  multiple value
    [dropped_letter, swapped_letter, horizontal_proximity_typo,
      vertical_proximity_typo]

/-- Specification-side description of the Combinator, following the spec's
words: concatenate each constituent trace's full output in list order,
stopping at (and propagating) the first error. Deduplication is applied on
top via `dedupList`. -/
def drain : List Trace → Trace
  | [] => ⟨[], none⟩
  | t :: rest =>
    match t.result with
    | some e => ⟨t.out, some e⟩
    | none => ⟨t.out ++ (drain rest).out, (drain rest).result⟩

/-- The single variant `swapped_casing` builds for a character `c` of the
token: the token with the first occurrence of `c` replaced by its
case-inverted form (empty when `c` is uncased). -/
def swapFirst (value : List Char) (c : Char) : List Char :=
  partitionBefore value c ++ (swapCase c).toList ++ partitionAfter value c

/-- The variants `proximity_typo` builds for a character `c` of the token:
one per neighbor of `c` in the layout table, each replacing the first
occurrence of `c` by that neighbor. -/
def typoVariants (value : List Char) (layout : Proximities) (c : Char) :
    List (List Char) :=
  ((layout.value.lookup c).getD []).map
    (fun r => partitionBefore value c ++ [r] ++ partitionAfter value c)

/-- Number of positions at which two equal-length tokens differ. -/
def diffCount (a b : List Char) : Nat :=
  ((a.zip b).filter (fun p => p.1 != p.2)).length

/-- The 26 lowercase ASCII letters. -/
def lowerChars : List Char := "abcdefghijklmnopqrstuvwxyz".toList

/-- The 26 uppercase ASCII letters. -/
def upperChars : List Char := "ABCDEFGHIJKLMNOPQRSTUVWXYZ".toList

/-- Dedup-folding an empty candidate list leaves the output unchanged. -/
theorem dedupAppend_nil (acc : List (List Char)) :
    dedupAppend acc [] = acc := rfl

/-- Unfolding lemma: the dedup fold handles the head candidate first. -/
theorem dedupAppend_cons (acc : List (List Char)) (x : List Char) (l : List (List Char)) :
    dedupAppend acc (x :: l) = dedupAppend (if x ∈ acc then acc else acc ++ [x]) l := rfl

/-- The dedup fold over a concatenation is the composition of the folds. -/
theorem dedupAppend_append (acc : List (List Char)) (a b : List (List Char)) :
    dedupAppend acc (a ++ b) = dedupAppend (dedupAppend acc a) b := by
  simp [dedupAppend, List.foldl_append]

/-- Membership in the dedup fold: exactly the old output and the candidates. -/
theorem mem_dedupAppend (x : List Char) (l : List (List Char)) :
    ∀ acc : List (List Char), x ∈ dedupAppend acc l ↔ x ∈ acc ∨ x ∈ l := by
  induction l with
  | nil => intro acc; simp [dedupAppend]
  | cons y l ih =>
    intro acc
    rw [dedupAppend_cons, ih]
    by_cases hy : y ∈ acc
    · by_cases hxy : x = y <;> simp [hy, hxy]
    · by_cases hxy : x = y <;> simp [hy, hxy]

/-- The dedup fold preserves freedom from duplicates. -/
theorem nodup_dedupAppend (l : List (List Char)) :
    ∀ acc : List (List Char), acc.Nodup → (dedupAppend acc l).Nodup := by
  induction l with
  | nil => intro acc h; exact h
  | cons y l ih =>
    intro acc h
    rw [dedupAppend_cons]
    by_cases hy : y ∈ acc
    · simpa [hy] using ih acc h
    · simp only [hy, if_false]
      refine ih _ ?_
      simp [List.nodup_append, h, hy]

/-- The dedup fold never yields more elements than it is given. -/
theorem length_dedupAppend_le (l : List (List Char)) :
    ∀ acc : List (List Char), (dedupAppend acc l).length ≤ acc.length + l.length := by
  induction l with
  | nil => intro acc; simp [dedupAppend]
  | cons y l ih =>
    intro acc
    rw [dedupAppend_cons]
    by_cases hy : y ∈ acc
    · simp only [hy, if_true]
      have := ih acc
      simp only [List.length_cons]
      omega
    · simp only [hy, if_false]
      have := ih (acc ++ [y])
      simp only [List.length_append, List.length_cons, List.length_nil] at this ⊢
      omega

/-- Membership in a drained trace list comes from one of the traces. -/
theorem mem_drain_out (x : List Char) :
    ∀ ts : List Trace, x ∈ (drain ts).out → ∃ t ∈ ts, x ∈ t.out := by
  intro ts
  induction ts with
  | nil => intro h; simp [drain] at h
  | cons t rest ih =>
    obtain ⟨tout, tres⟩ := t
    intro h
    cases tres with
    | some e =>
      simp only [drain] at h
      exact ⟨⟨tout, some e⟩, by simp, h⟩
    | none =>
      simp only [drain, List.mem_append] at h
      rcases h with h | h
      · exact ⟨⟨tout, none⟩, by simp, h⟩
      · obtain ⟨u, hu, hx⟩ := ih h
        exact ⟨u, by simp [hu], hx⟩

/-- Draining one more trace can only extend the set of produced variants. -/
theorem mem_drain_append (x : List Char) (t : Trace) :
    ∀ ts : List Trace, x ∈ (drain ts).out → x ∈ (drain (ts ++ [t])).out := by
  intro ts
  induction ts with
  | nil => intro h; simp [drain] at h
  | cons u rest ih =>
    obtain ⟨uout, ures⟩ := u
    intro h
    rw [List.cons_append]
    cases ures with
    | some e => simpa only [drain] using h
    | none =>
      simp only [drain, List.mem_append] at h ⊢
      rcases h with h | h
      · exact Or.inl h
      · exact Or.inr (ih h)

/-- Appending a trace that produced nothing does not change the drained
output list. -/
theorem drain_append_empty (t : Trace) (hout : t.out = []) :
    ∀ ts : List Trace, (drain (ts ++ [t])).out = (drain ts).out := by
  intro ts
  induction ts with
  | nil =>
    cases hr : t.result <;> simp [drain, hr, hout]
  | cons u rest ih =>
    obtain ⟨uout, ures⟩ := u
    rw [List.cons_append]
    cases ures with
    | some e => rfl
    | none => simp only [drain, ih]

/-- The Combinator loop is the dedup fold over the drained constituent
traces: generators run in list order, each fully drained before the next,
with one shared seen set, and the first error propagates. -/
theorem multipleGo_eq_drain (value : List Char) :
    ∀ (handlers : List (List Char → Trace)) (acc : List (List Char)),
      multipleGo value handlers acc =
        ⟨dedupAppend acc (drain (handlers.map (fun h => h value))).out,
          (drain (handlers.map (fun h => h value))).result⟩ := by
  intro handlers
  induction handlers with
  | nil => intro acc; simp [multipleGo, drain, dedupAppend]
  | cons h rest ih =>
    intro acc
    rw [multipleGo, List.map_cons, drain]
    cases hr : (h value).result with
    | some e => simp [hr]
    | none =>
      simp only [hr]
      rw [ih]
      simp [dedupAppend_append]

/-- On a whitespace-free remainder, the Letter-Drop loop dedup-yields one
candidate per remaining position, left to right, and terminates normally. -/
theorem droppedGo_spec (value : List Char) :
    ∀ (suffix : List Char) (position : Nat) (acc : List (List Char)),
      value.drop position = suffix →
      (∀ c ∈ suffix, c.isWhitespace = false) →
      droppedGo value position suffix acc =
        ⟨dedupAppend acc ((List.range' position (value.length - position)).map
            (fun i => value.take i ++ value.drop (i + 1))), none⟩ := by
  intro suffix
  induction suffix with
  | nil =>
    intro position acc hdrop _
    have hlen : value.length - position = 0 := by
      have := congrArg List.length hdrop
      simp only [List.length_drop, List.length_nil] at this
      omega
    simp [droppedGo, hlen, dedupAppend]
  | cons char rest ih =>
    intro position acc hdrop hws
    have hlt : position < value.length := by
      have := congrArg List.length hdrop
      simp only [List.length_drop, List.length_cons] at this
      omega
    have hdropsucc : value.drop (position + 1) = rest := by
      have h1 : value.drop (position + 1) = (value.drop position).drop 1 := by
        rw [List.drop_drop]
      rw [h1, hdrop]
      rfl
    have hchar : char.isWhitespace = false := hws char (by simp)
    have hrange : List.range' position (value.length - position) =
        position :: List.range' (position + 1) (value.length - (position + 1)) := by
      have h2 : value.length - position = (value.length - (position + 1)) + 1 := by
        omega
      rw [h2, List.range'_succ]
    rw [droppedGo]
    simp only [hchar, Bool.false_eq_true, if_false]
    rw [ih (position + 1) _ hdropsucc (fun c hc => hws c (by simp [hc]))]
    rw [hrange, List.map_cons, dedupAppend_cons]

/-- The Adjacent-Swap loop yields at most one variant per remaining pair. -/
theorem swappedGo_length_le (value : List Char) :
    ∀ (suffix : List Char) (position : Nat) (acc : List (List Char)),
      (swappedGo value position suffix acc).out.length ≤
        acc.length + (suffix.length - 1) := by
  intro suffix
  induction suffix with
  | nil => intro position acc; simp [swappedGo]
  | cons thischar rest ih =>
    intro position acc
    cases rest with
    | nil => simp [swappedGo]
    | cons nextchar rest2 =>
      rw [swappedGo]
      by_cases hws : thischar.isWhitespace || nextchar.isWhitespace
      · simp only [hws, if_true, List.length_cons]
        omega
      · simp only [Bool.not_eq_true] at hws
        simp only [hws, Bool.false_eq_true, if_false]
        have h2 := ih (position + 1)
          (if value.take position ++ [nextchar, thischar] ++
              value.drop (position + 2) ∈ acc then acc
           else acc ++ [value.take position ++ [nextchar, thischar] ++
              value.drop (position + 2)])
        by_cases hmem : value.take position ++ [nextchar, thischar] ++
            value.drop (position + 2) ∈ acc
        · simp only [hmem, if_true, List.length_cons] at h2 ⊢
          omega
        · simp only [hmem, if_false, List.length_append, List.length_cons,
            List.length_nil] at h2 ⊢
          omega

/-- Every variant the Adjacent-Swap loop adds has the token's length. -/
theorem swappedGo_mem_length (value : List Char) :
    ∀ (suffix : List Char) (position : Nat) (acc : List (List Char))
      (v : List Char),
      value.drop position = suffix →
      v ∈ (swappedGo value position suffix acc).out →
      v ∈ acc ∨ v.length = value.length := by
  intro suffix
  induction suffix with
  | nil => intro position acc v _ hv; exact Or.inl hv
  | cons thischar rest ih =>
    intro position acc v hdrop hv
    cases rest with
    | nil => exact Or.inl hv
    | cons nextchar rest2 =>
      rw [swappedGo] at hv
      by_cases hws : thischar.isWhitespace || nextchar.isWhitespace
      · simp only [hws, if_true] at hv
        exact Or.inl hv
      · simp only [hws, if_false] at hv
        have hlen : position + 2 ≤ value.length := by
          have := congrArg List.length hdrop
          simp only [List.length_drop, List.length_cons] at this
          omega
        have hdropsucc : value.drop (position + 1) = nextchar :: rest2 := by
          have h1 : value.drop (position + 1) = (value.drop position).drop 1 := by
            rw [List.drop_drop]
          rw [h1, hdrop]
          rfl
        have hnv : (value.take position ++ [nextchar, thischar] ++
            value.drop (position + 2)).length = value.length := by
          simp only [List.length_append, List.length_take, List.length_cons,
            List.length_nil, List.length_drop]
          omega
        rcases ih (position + 1) _ v hdropsucc hv with h | h
        · by_cases hmem : (value.take position ++ [nextchar, thischar] ++
              value.drop (position + 2)) ∈ acc
          · simp only [hmem, if_true] at h
            exact Or.inl h
          · simp only [hmem, if_false, List.mem_append, List.mem_singleton] at h
            rcases h with h | h
            · exact Or.inl h
            · subst h
              exact Or.inr hnv
        · exact Or.inr h

/-- Whitespace characters are uncased, so the case-inversion step rejects
them (the loop's own whitespace check fires first anyway). -/
theorem swapCase_of_whitespace (c : Char) (h : c.isWhitespace = true) :
    swapCase c = none := by
  have hc : ((c = ' ' ∨ c = '\t') ∨ c = '\x0d') ∨ c = '\n' := by
    simpa [Char.isWhitespace] using h
  rcases hc with ((h | h) | h) | h <;> subst h <;> decide

/-- On a remainder of cased characters, the Case-Swap loop dedup-yields the
first-occurrence case-swap variant of each remaining character, in order,
and terminates normally. -/
theorem casingGo_spec (value : List Char) :
    ∀ (suffix : List Char) (acc : List (List Char)),
      (∀ c ∈ suffix, (swapCase c).isSome) →
      casingGo value suffix acc =
        ⟨dedupAppend acc (suffix.map (swapFirst value)), none⟩ := by
  intro suffix
  induction suffix with
  | nil => intro acc _; simp [casingGo, dedupAppend]
  | cons char rest ih =>
    intro acc hsup
    have hchar : (swapCase char).isSome := hsup char (by simp)
    obtain ⟨r, hr⟩ := Option.isSome_iff_exists.mp hchar
    have hws : char.isWhitespace = false := by
      by_contra hcon
      rw [Bool.not_eq_false] at hcon
      rw [swapCase_of_whitespace char hcon] at hr
      exact Option.noConfusion hr
    rw [casingGo]
    simp only [hws, Bool.false_eq_true, if_false, hr]
    rw [ih _ (fun c hc => hsup c (by simp [hc]))]
    rw [List.map_cons, dedupAppend_cons]
    simp only [swapFirst, hr, Option.toList_some]

/-- On a remainder of non-whitespace characters with table entries, the
Proximity-Typo loop dedup-yields, for each remaining character in order,
one first-occurrence replacement variant per neighbor in table order, and
terminates normally. -/
theorem proximityGo_spec (value : List Char) (layout : Proximities) :
    ∀ (suffix : List Char) (acc : List (List Char)),
      (∀ c ∈ suffix, c.isWhitespace = false ∧ (layout.value.lookup c).isSome) →
      proximityGo value layout suffix acc =
        ⟨dedupAppend acc (suffix.map (typoVariants value layout)).flatten, none⟩ := by
  intro suffix
  induction suffix with
  | nil => intro acc _; simp [proximityGo, dedupAppend]
  | cons letter rest ih =>
    intro acc hsup
    obtain ⟨hws, hsome⟩ := hsup letter (by simp)
    obtain ⟨ns, hns⟩ := Option.isSome_iff_exists.mp hsome
    rw [proximityGo]
    simp only [hws, Bool.false_eq_true, if_false, hns]
    rw [ih _ (fun c hc => hsup c (by simp [hc]))]
    rw [List.map_cons, List.flatten_cons, dedupAppend_append]
    simp only [typoVariants, hns, Option.getD_some]

/-- Every variant the Proximity-Typo loop adds replaces the first
occurrence of some character of the token by one of its table neighbors. -/
theorem proximityGo_mem (value : List Char) (layout : Proximities) :
    ∀ (suffix : List Char) (acc : List (List Char)) (v : List Char),
      (∀ c ∈ suffix, c ∈ value) →
      v ∈ (proximityGo value layout suffix acc).out →
      v ∈ acc ∨ ∃ c ∈ value, ∃ ns, layout.value.lookup c = some ns ∧
        ∃ r ∈ ns, v = partitionBefore value c ++ [r] ++ partitionAfter value c := by
  intro suffix
  induction suffix with
  | nil => intro acc v _ hv; exact Or.inl hv
  | cons letter rest ih =>
    intro acc v hsub hv
    rw [proximityGo] at hv
    by_cases hws : letter.isWhitespace
    · simp only [hws, if_true] at hv
      exact Or.inl hv
    · simp only [Bool.not_eq_true] at hws
      simp only [hws, Bool.false_eq_true, if_false] at hv
      cases hns : layout.value.lookup letter with
      | none =>
        rw [hns] at hv
        exact Or.inl hv
      | some ns =>
        rw [hns] at hv
        rcases ih _ v (fun c hc => hsub c (by simp [hc])) hv with h | h
        · rw [mem_dedupAppend] at h
          rcases h with h | h
          · exact Or.inl h
          · simp only [List.mem_map] at h
            obtain ⟨r, hrns, hrv⟩ := h
            exact Or.inr ⟨letter, hsub letter (by simp), ns, hns, r, hrns, hrv.symm⟩
        · exact Or.inr h

/-- A property holding of every entry of an association list holds of any
successful lookup. -/
theorem lookup_entry_prop (P : Char → List Char → Prop) :
    ∀ t : List (Char × List Char), (∀ p ∈ t, P p.1 p.2) →
      ∀ c ns, t.lookup c = some ns → P c ns := by
  intro t
  induction t with
  | nil => intro _ c ns h; simp at h
  | cons p rest ih =>
    obtain ⟨k, b⟩ := p
    intro hall c ns h
    rw [List.lookup_cons] at h
    by_cases hc : c == k
    · rw [hc] at h
      simp only at h
      have hck : c = k := by
        exact eq_of_beq hc
      subst hck
      cases h
      exact hall (c, b) (by simp)
    · rw [Bool.not_eq_true] at hc
      rw [hc] at h
      simp only at h
      exact ih (fun q hq => hall q (by simp [hq])) c ns h

/-- In either layout table, no key is its own neighbor. -/
theorem lookup_neighbor_ne (layout : Proximities) (c : Char) (ns : List Char)
    (h : layout.value.lookup c = some ns) : ∀ r ∈ ns, r ≠ c := by
  have hmain : ∀ p ∈ layout.value, ∀ r ∈ p.2, r ≠ p.1 := by
    cases layout <;> · rw [Proximities.value]; decide
  exact lookup_entry_prop (fun c ns => ∀ r ∈ ns, r ≠ c) layout.value hmain c ns h

/-- A character of the token splits it around its first occurrence. -/
theorem partition_decomp (c : Char) :
    ∀ value : List Char, c ∈ value →
      value = partitionBefore value c ++ [c] ++ partitionAfter value c := by
  intro value
  induction value with
  | nil => intro h; simp at h
  | cons a rest ih =>
    intro h
    by_cases hac : a = c
    · subst hac
      simp [partitionBefore, partitionAfter]
    · have hcr : c ∈ rest := by
        rcases List.mem_cons.mp h with h1 | h1
        · exact absurd h1.symm hac
        · exact h1
      have hbne : (a != c) = true := by
        simpa using hac
      have ihr := ih hcr
      simp only [partitionBefore, partitionAfter, List.takeWhile_cons, hbne,
        List.dropWhile_cons, if_true, List.cons_append]
      have ihr2 : rest = List.takeWhile (fun x => x != c) rest ++ [c] ++
          List.drop 1 (List.dropWhile (fun x => x != c) rest) := by
        simpa [partitionBefore, partitionAfter] using ihr
      exact congrArg (a :: ·) ihr2

/-- A list zipped with itself has no differing pair. -/
theorem zip_self_filter (l : List Char) :
    (l.zip l).filter (fun p => p.1 != p.2) = [] := by
  induction l with
  | nil => rfl
  | cons a rest ih => simp [List.zip_cons_cons, ih]

/-- Replacing one character by a different one gives difference count 1. -/
theorem diffCount_replace (p s : List Char) (x y : Char) (hxy : y ≠ x) :
    diffCount (p ++ x :: s) (p ++ y :: s) = 1 := by
  unfold diffCount
  rw [List.zip_append rfl, List.zip_cons_cons]
  rw [List.filter_append, List.filter_cons]
  have hx : (x != y) = true := by
    simpa using fun h => hxy h.symm
  simp [zip_self_filter, hx]

/-- Letter-Drop propagates the whitespace error once some remaining
character is whitespace. -/
theorem droppedGo_ws (value : List Char) :
    ∀ (suffix : List Char) (position : Nat) (acc : List (List Char)),
      (∃ c ∈ suffix, c.isWhitespace = true) →
      (droppedGo value position suffix acc).result = some OneawayError.whitespace := by
  intro suffix
  induction suffix with
  | nil => intro _ _ h; simp at h
  | cons char rest ih =>
    intro position acc h
    rw [droppedGo]
    by_cases hws : char.isWhitespace = true
    · simp [hws]
    · simp only [Bool.not_eq_true] at hws
      simp only [hws, Bool.false_eq_true, if_false]
      apply ih
      obtain ⟨c, hc, hcw⟩ := h
      rcases List.mem_cons.mp hc with rfl | hcr
      · rw [hws] at hcw
        simp at hcw
      · exact ⟨c, hcr, hcw⟩

/-- Adjacent-Swap propagates the whitespace error once some remaining
character is whitespace, provided at least one pair remains. -/
theorem swappedGo_ws (value : List Char) :
    ∀ (suffix : List Char) (position : Nat) (acc : List (List Char)),
      2 ≤ suffix.length →
      (∃ c ∈ suffix, c.isWhitespace = true) →
      (swappedGo value position suffix acc).result = some OneawayError.whitespace := by
  intro suffix
  induction suffix with
  | nil => intro _ _ hlen _; simp at hlen
  | cons thischar rest ih =>
    intro position acc hlen h
    cases rest with
    | nil => simp at hlen
    | cons nextchar rest2 =>
      rw [swappedGo]
      by_cases hws : (thischar.isWhitespace || nextchar.isWhitespace) = true
      · simp [hws]
      · simp only [Bool.or_eq_true, not_or, Bool.not_eq_true] at hws
        obtain ⟨h1, h2⟩ := hws
        have hb : (thischar.isWhitespace || nextchar.isWhitespace) = false := by
          simp [h1, h2]
        simp only [hb, Bool.false_eq_true, if_false]
        obtain ⟨c, hc, hcw⟩ := h
        have hc3 : c ∈ rest2 := by
          rcases List.mem_cons.mp hc with rfl | hc2
          · rw [h1] at hcw
            simp at hcw
          · rcases List.mem_cons.mp hc2 with rfl | hc3
            · rw [h2] at hcw
              simp at hcw
            · exact hc3
        have hlen2 : 2 ≤ (nextchar :: rest2).length := by
          have hpos := List.length_pos.mpr (List.ne_nil_of_mem hc3)
          simp only [List.length_cons]
          omega
        exact ih (position + 1) _ hlen2 ⟨c, by simp [hc3], hcw⟩

/-- Case-Swap propagates the whitespace error once some remaining character
is whitespace, provided every remaining character up to it is cased. -/
theorem casingGo_ws (value : List Char) :
    ∀ (suffix : List Char) (acc : List (List Char)),
      (∃ c ∈ suffix, c.isWhitespace = true) →
      (∀ c ∈ suffix, c.isWhitespace = true ∨ (swapCase c).isSome = true) →
      (casingGo value suffix acc).result = some OneawayError.whitespace := by
  intro suffix
  induction suffix with
  | nil => intro _ h _; simp at h
  | cons char rest ih =>
    intro acc hex hall
    rw [casingGo]
    by_cases hws : char.isWhitespace = true
    · simp [hws]
    · simp only [Bool.not_eq_true] at hws
      simp only [hws, Bool.false_eq_true, if_false]
      have hsup : (swapCase char).isSome = true := by
        rcases hall char (by simp) with h | h
        · rw [hws] at h
          simp at h
        · exact h
      obtain ⟨r, hr⟩ := Option.isSome_iff_exists.mp hsup
      simp only [hr]
      apply ih
      · obtain ⟨c, hc, hcw⟩ := hex
        rcases List.mem_cons.mp hc with rfl | hc2
        · rw [hws] at hcw
          simp at hcw
        · exact ⟨c, hc2, hcw⟩
      · exact fun c hc => hall c (by simp [hc])

/-- Proximity-Typo propagates the whitespace error once some remaining
character is whitespace, provided every remaining character up to it has a
table entry. -/
theorem proximityGo_ws (value : List Char) (layout : Proximities) :
    ∀ (suffix : List Char) (acc : List (List Char)),
      (∃ c ∈ suffix, c.isWhitespace = true) →
      (∀ c ∈ suffix, c.isWhitespace = true ∨ (layout.value.lookup c).isSome = true) →
      (proximityGo value layout suffix acc).result = some OneawayError.whitespace := by
  intro suffix
  induction suffix with
  | nil => intro _ h _; simp at h
  | cons letter rest ih =>
    intro acc hex hall
    rw [proximityGo]
    by_cases hws : letter.isWhitespace = true
    · simp [hws]
    · simp only [Bool.not_eq_true] at hws
      simp only [hws, Bool.false_eq_true, if_false]
      have hsup : (layout.value.lookup letter).isSome = true := by
        rcases hall letter (by simp) with h | h
        · rw [hws] at h
          simp at h
        · exact h
      obtain ⟨ns, hns⟩ := Option.isSome_iff_exists.mp hsup
      simp only [hns]
      apply ih
      · obtain ⟨c, hc, hcw⟩ := hex
        rcases List.mem_cons.mp hc with rfl | hc2
        · rw [hws] at hcw
          simp at hcw
        · exact ⟨c, hc2, hcw⟩
      · exact fun c hc => hall c (by simp [hc])

/-- Tokens with fewer than two characters make Adjacent-Swap terminate
normally with no variants, whatever the characters are. -/
theorem swapped_letter_short (value : List Char) (h : value.length ≤ 1) :
    swapped_letter value = ⟨[], none⟩ := by
  cases value with
  | nil => rfl
  | cons a rest =>
    cases rest with
    | nil => rfl
    | cons b rest2 => simp at h

/-- Characters accepted by `Char.isLower` are exactly the 26 lowercase
ASCII letters. -/
theorem mem_of_isLower (c : Char) (h : c.isLower = true) : c ∈ lowerChars := by
  have h1 : 97 ≤ c.toNat ∧ c.toNat ≤ 122 := by
    simp only [Char.isLower, ge_iff_le, Bool.and_eq_true, decide_eq_true_eq] at h
    obtain ⟨ha, hb⟩ := h
    exact ⟨ha, hb⟩
  obtain ⟨ha, hb⟩ := h1
  rw [← Char.ofNat_toNat c]
  set n := c.toNat with hn
  interval_cases n <;> decide

/-- Characters accepted by `Char.isUpper` are exactly the 26 uppercase
ASCII letters. -/
theorem mem_of_isUpper (c : Char) (h : c.isUpper = true) : c ∈ upperChars := by
  have h1 : 65 ≤ c.toNat ∧ c.toNat ≤ 90 := by
    simp only [Char.isUpper, ge_iff_le, Bool.and_eq_true, decide_eq_true_eq] at h
    obtain ⟨ha, hb⟩ := h
    exact ⟨ha, hb⟩
  obtain ⟨ha, hb⟩ := h1
  rw [← Char.ofNat_toNat c]
  set n := c.toNat with hn
  interval_cases n <;> decide

/-- Case inversion round-trips on every lowercase ASCII letter. -/
theorem lower_roundtrip : ∀ c ∈ lowerChars, swapCase c.toUpper = some c := by
  decide

/-- Case inversion round-trips on every uppercase ASCII letter. -/
theorem upper_roundtrip : ∀ c ∈ upperChars, swapCase c.toLower = some c := by
  decide

/-- Both layout tables contain every lowercase ASCII letter. -/
theorem lower_lookup_isSome : ∀ c ∈ lowerChars,
    (horizontalTable.lookup c).isSome = true ∧
      (verticalTable.lookup c).isSome = true := by
  decide

/-- No lowercase ASCII letter is whitespace. -/
theorem lower_not_ws : ∀ c ∈ lowerChars, c.isWhitespace = false := by
  decide

/-- Either layout table has an entry for every lowercase character. -/
theorem layout_lookup_lower (layout : Proximities) (c : Char)
    (h : c.isLower = true) : (layout.value.lookup c).isSome = true := by
  have hm := mem_of_isLower c h
  cases layout
  · exact (lower_lookup_isSome c hm).1
  · exact (lower_lookup_isSome c hm).2

/-- C5: for every whitespace-free token of length n, `dropped_letter`
terminates normally and yields exactly the per-position single-character
drops, left to right, keeping only the first occurrence of duplicate
results; hence at most n variants, each of length n − 1. In particular
"cat" yields exactly ["at", "ct", "ca"] in that order and "a" yields
exactly [""]. -/
theorem claim_C5 :
    (∀ value : List Char, (∀ c ∈ value, c.isWhitespace = false) →
      dropped_letter value =
        ⟨dedupList ((List.range value.length).map
            (fun i => value.take i ++ value.drop (i + 1))), none⟩ ∧
      (dropped_letter value).out.length ≤ value.length ∧
      (∀ v ∈ (dropped_letter value).out, v.length = value.length - 1)) ∧
    dropped_letter "cat".toList = ⟨["at".toList, "ct".toList, "ca".toList], none⟩ ∧
    dropped_letter "a".toList = ⟨[[]], none⟩ := by
  refine ⟨?_, by decide, by decide⟩
  intro value hws
  have hmain : dropped_letter value =
      ⟨dedupList ((List.range value.length).map
          (fun i => value.take i ++ value.drop (i + 1))), none⟩ := by
    unfold dropped_letter dedupList
    rw [List.range_eq_range']
    have h0 : value.drop 0 = value := List.drop_zero value
    have hs := droppedGo_spec value value 0 [] h0 hws
    simpa using hs
  refine ⟨hmain, ?_, ?_⟩
  · rw [hmain]
    have hlen := length_dedupAppend_le ((List.range value.length).map
        (fun i => value.take i ++ value.drop (i + 1))) []
    simp only [dedupList, List.length_map, List.length_range, List.length_nil] at hlen ⊢
    omega
  · intro v hv
    rw [hmain] at hv
    simp only [dedupList] at hv
    rw [mem_dedupAppend] at hv
    rcases hv with h | h
    · simp at h
    · simp only [List.mem_map, List.mem_range] at h
      obtain ⟨i, hi, rfl⟩ := h
      simp only [List.length_append, List.length_take, List.length_drop]
      omega

/-- C5 witness: the general part of C5 instantiated on the concrete
whitespace-free token "dog". -/
theorem claim_C5_witness :
    dropped_letter "dog".toList =
      ⟨dedupList ((List.range "dog".toList.length).map
          (fun i => "dog".toList.take i ++ "dog".toList.drop (i + 1))), none⟩ :=
  (claim_C5.1 "dog".toList (by decide)).1

/-- C6: for every token of length n, `swapped_letter` yields at most n − 1
variants, each of length n, and yields zero variants terminating normally
when n ≤ 1; "cat" yields exactly ["act", "cta"]. -/
theorem claim_C6 :
    (∀ value : List Char,
      (swapped_letter value).out.length ≤ value.length - 1 ∧
      (∀ v ∈ (swapped_letter value).out, v.length = value.length) ∧
      (value.length ≤ 1 → swapped_letter value = ⟨[], none⟩)) ∧
    swapped_letter "cat".toList = ⟨["act".toList, "cta".toList], none⟩ := by
  refine ⟨?_, by decide⟩
  intro value
  refine ⟨?_, ?_, fun h => swapped_letter_short value h⟩
  · have hb := swappedGo_length_le value value 0 []
    simpa [swapped_letter] using hb
  · intro v hv
    have hm := swappedGo_mem_length value value 0 [] v (List.drop_zero value) hv
    rcases hm with h | h
    · simp at h
    · exact h

/-- C6 witness: the membership and small-token parts of C6 instantiated on
concrete tokens. -/
theorem claim_C6_witness :
    ("act".toList : List Char).length = "cat".toList.length ∧
      swapped_letter ['x'] = ⟨[], none⟩ :=
  ⟨(claim_C6.1 "cat".toList).2.1 "act".toList (by decide),
    (claim_C6.1 ['x']).2.2 (by decide)⟩

/-- C7: every variant yielded by `proximity_typo`, for any token and either
layout, has the same length as the input token and differs from it in
exactly one character position. -/
theorem claim_C7 (value : List Char) (layout : Proximities) (v : List Char)
    (hv : v ∈ (proximity_typo value layout).out) :
    v.length = value.length ∧ diffCount value v = 1 := by
  have hm := proximityGo_mem value layout value [] v (fun c hc => hc) hv
  rcases hm with h | h
  · simp at h
  · obtain ⟨c, hcval, ns, hns, r, hrns, rfl⟩ := h
    have hdec := partition_decomp c value hcval
    have hne : r ≠ c := lookup_neighbor_ne layout c ns hns r hrns
    constructor
    · conv_rhs => rw [hdec]
      simp [List.length_append]
    · nth_rewrite 1 [hdec]
      rw [List.append_assoc, List.append_assoc, List.singleton_append,
        List.singleton_append]
      exact diffCount_replace (partitionBefore value c) (partitionAfter value c)
        c r hne

/-- C7 witness: the variant "xa" of the token "ca" under the horizontal
layout has the token's length and differs from it in exactly one place. -/
theorem claim_C7_witness :
    (['x', 'a'] : List Char).length = (['c', 'a'] : List Char).length ∧
      diffCount ['c', 'a'] ['x', 'a'] = 1 :=
  claim_C7 ['c', 'a'] Proximities.QWERTY_HORIZONTAL ['x', 'a'] (by decide)

/-- C9: the per-character case inversion used by `swapped_casing` is an
involution on supported characters: if it maps c to r, it maps r back
to c (the inverted character is itself always supported). -/
theorem claim_C9 (c r : Char) (h : swapCase c = some r) : swapCase r = some c := by
  by_cases hl : c.isLower = true
  · have hm := mem_of_isLower c hl
    simp only [swapCase, hl, if_true] at h
    cases h
    exact lower_roundtrip c hm
  · by_cases hu : c.isUpper = true
    · have hm := mem_of_isUpper c hu
      simp only [swapCase, hl, hu, Bool.false_eq_true, if_false, if_true] at h
      cases h
      exact upper_roundtrip c hm
    · simp [swapCase, hl, hu] at h

/-- C9 witness: inverting the case of 'a' gives 'A', and inverting 'A'
gives back 'a'. -/
theorem claim_C9_witness : swapCase 'A' = some 'a' :=
  claim_C9 'a' 'A' (by decide)

/-- C10: on a token of lowercase ASCII letters, `proximity_typo` never
raises the unsupported-character error, with either layout: both tables
cover all 26 lowercase letters. -/
theorem claim_C10 (value : List Char) (layout : Proximities)
    (h : ∀ c ∈ value, c.isLower = true) :
    (proximity_typo value layout).result ≠ some OneawayError.unsupported := by
  have hspec := proximityGo_spec value layout value []
    (fun c hc => ⟨lower_not_ws c (mem_of_isLower c (h c hc)),
      layout_lookup_lower layout c (h c hc)⟩)
  unfold proximity_typo
  rw [hspec]
  simp

/-- C10 witness: the all-lowercase token "cat" under the vertical layout
does not hit the unsupported-character error. -/
theorem claim_C10_witness :
    (proximity_typo "cat".toList Proximities.QWERTY_VERTICAL).result ≠
      some OneawayError.unsupported :=
  claim_C10 "cat".toList Proximities.QWERTY_VERTICAL (by decide)

/-- C1 counterexample: on the whitespace-free token "aa", whose character
at position 1 is the simple bicameral letter 'a', the claim requires the
variant "aA" (position 1 case-inverted) to be yielded; `swapped_casing`
instead completes normally yielding only "Aa", because the code replaces
the FIRST occurrence of the character (Python `str.partition`), not the
occurrence at the enumerated position. -/
theorem claim_C1_counterexample :
    (swapped_casing ['a', 'a']).result = none ∧
      (swapped_casing ['a', 'a']).out = [['A', 'a']] ∧
      ['a', 'A'] ∉ (swapped_casing ['a', 'a']).out := by
  decide

/-- C1 amended: for every token all of whose characters are simple
bicameral letters, `swapped_casing` terminates normally and yields, for
each position in left-to-right order with first-occurrence deduplication,
the token with the FIRST OCCURRENCE of that position's character replaced
by its case-inverted form. -/
theorem claim_C1_amended (value : List Char)
    (hsup : ∀ c ∈ value, (swapCase c).isSome = true) :
    swapped_casing value = ⟨dedupList (value.map (swapFirst value)), none⟩ := by
  unfold swapped_casing dedupList
  exact casingGo_spec value value [] hsup

/-- C1 witness: the amended statement instantiated on the all-bicameral
token "aba". -/
theorem claim_C1_witness :
    swapped_casing "aba".toList =
      ⟨dedupList ("aba".toList.map (swapFirst "aba".toList)), none⟩ :=
  claim_C1_amended "aba".toList (by decide)

/-- C2 counterexample: on the token "aa", all of whose characters have
horizontal-layout entries, the claim requires the variant "as" (position 1
replaced by its neighbor 's') to be yielded; `proximity_typo` instead
completes normally yielding only "sa", because the code replaces the FIRST
occurrence of the character (Python `str.partition`), not the occurrence
at the enumerated position. -/
theorem claim_C2_counterexample :
    (proximity_typo ['a', 'a'] Proximities.QWERTY_HORIZONTAL).result = none ∧
      (proximity_typo ['a', 'a'] Proximities.QWERTY_HORIZONTAL).out = [['s', 'a']] ∧
      ['a', 's'] ∉ (proximity_typo ['a', 'a'] Proximities.QWERTY_HORIZONTAL).out := by
  decide

/-- C2 amended: for every whitespace-free token whose characters all have
entries in the chosen layout table, `proximity_typo` terminates normally
and yields, for each position in left-to-right order and each neighbor in
table order, with first-occurrence deduplication, the token with the FIRST
OCCURRENCE of that position's character replaced by that neighbor. -/
theorem claim_C2_amended (value : List Char) (layout : Proximities)
    (hsup : ∀ c ∈ value, c.isWhitespace = false ∧
      (layout.value.lookup c).isSome = true) :
    proximity_typo value layout =
      ⟨dedupList (value.map (typoVariants value layout)).flatten, none⟩ := by
  unfold proximity_typo dedupList
  exact proximityGo_spec value layout value [] hsup

/-- C2 witness: the amended statement instantiated on the token "cat"
under the horizontal layout. -/
theorem claim_C2_witness :
    proximity_typo "cat".toList Proximities.QWERTY_HORIZONTAL =
      ⟨dedupList ("cat".toList.map
          (typoVariants "cat".toList Proximities.QWERTY_HORIZONTAL)).flatten,
        none⟩ :=
  claim_C2_amended "cat".toList Proximities.QWERTY_HORIZONTAL (by decide)

/-- C3: the Combinator runs the generators in list order, fully draining
each before the next, and dedup-yields in first-encounter order with one
shared seen set (the `drain`/`dedupList` characterization); consequently
its output has no duplicates and every output comes from some listed
generator; in particular, the `common` preset's output has no duplicate
strings and is a subset of the union of its three constituents' outputs. -/
theorem claim_C3 :
    (∀ (value : List Char) (handlers : List (List Char → Trace)),
      multiple value handlers =
        ⟨dedupList (drain (handlers.map (fun h => h value))).out,
          (drain (handlers.map (fun h => h value))).result⟩ ∧
      (multiple value handlers).out.Nodup ∧
      (∀ x ∈ (multiple value handlers).out,
        ∃ h ∈ handlers, x ∈ (h value).out)) ∧
    (∀ value : List Char,
      (common value).out.Nodup ∧
      (∀ x ∈ (common value).out,
        x ∈ (dropped_letter value).out ∨ x ∈ (swapped_letter value).out ∨
          x ∈ (horizontal_proximity_typo value).out)) := by
  have hmain : ∀ (value : List Char) (handlers : List (List Char → Trace)),
      multiple value handlers =
        ⟨dedupList (drain (handlers.map (fun h => h value))).out,
          (drain (handlers.map (fun h => h value))).result⟩ := by
    intro value handlers
    unfold multiple dedupList
    exact multipleGo_eq_drain value handlers []
  have hnodup : ∀ (value : List Char) (handlers : List (List Char → Trace)),
      (multiple value handlers).out.Nodup := by
    intro value handlers
    rw [hmain]
    exact nodup_dedupAppend _ [] List.nodup_nil
  have hmem : ∀ (value : List Char) (handlers : List (List Char → Trace)),
      ∀ x ∈ (multiple value handlers).out, ∃ h ∈ handlers, x ∈ (h value).out := by
    intro value handlers x hx
    rw [hmain] at hx
    simp only [dedupList] at hx
    rw [mem_dedupAppend] at hx
    rcases hx with hx | hx
    · simp at hx
    · obtain ⟨t, ht, hxt⟩ := mem_drain_out x _ hx
      simp only [List.mem_map] at ht
      obtain ⟨h, hh, rfl⟩ := ht
      exact ⟨h, hh, hxt⟩
  refine ⟨fun value handlers => ⟨hmain value handlers, hnodup value handlers,
    hmem value handlers⟩, ?_⟩
  intro value
  refine ⟨hnodup value _, ?_⟩
  intro x hx
  obtain ⟨h, hh, hxh⟩ := hmem value _ x hx
  simp only [List.mem_cons, List.not_mem_nil, or_false] at hh
  rcases hh with rfl | rfl | rfl
  · exact Or.inl hxh
  · exact Or.inr (Or.inl hxh)
  · exact Or.inr (Or.inr hxh)

/-- C3 witness: the membership parts of C3 instantiated on the token "cat"
and the `common` handler list, at the output variant "at". -/
theorem claim_C3_witness :
    (∃ h ∈ [dropped_letter, swapped_letter, horizontal_proximity_typo],
      "at".toList ∈ (h "cat".toList).out) ∧
      ("at".toList ∈ (dropped_letter "cat".toList).out ∨
        "at".toList ∈ (swapped_letter "cat".toList).out ∨
        "at".toList ∈ (horizontal_proximity_typo "cat".toList).out) :=
  ⟨(claim_C3.1 "cat".toList
      [dropped_letter, swapped_letter, horizontal_proximity_typo]).2.2
      "at".toList (by decide),
    (claim_C3.2 "cat".toList).2 "at".toList (by decide)⟩

/-- C4: for every token on which both presets complete without error, the
set of variants yielded by `mix` is a superset of the set yielded by
`common`; and when Proximity-Typo contributes nothing (both layout runs
yield no variants), the two outputs are equal. -/
theorem claim_C4 (value : List Char) :
    ((common value).result = none → (mix value).result = none →
      ∀ x ∈ (common value).out, x ∈ (mix value).out) ∧
    ((horizontal_proximity_typo value).out = [] →
      (vertical_proximity_typo value).out = [] →
      (common value).out = (mix value).out) := by
  have hcommon : (common value).out =
      dedupAppend [] (drain [dropped_letter value, swapped_letter value,
        horizontal_proximity_typo value]).out := by
    unfold common multiple
    rw [multipleGo_eq_drain]
    rfl
  have hmix : (mix value).out =
      dedupAppend [] (drain ([dropped_letter value, swapped_letter value,
        horizontal_proximity_typo value] ++ [vertical_proximity_typo value])).out := by
    unfold mix multiple
    rw [multipleGo_eq_drain]
    rfl
  constructor
  · intro _ _ x hx
    rw [hcommon, mem_dedupAppend] at hx
    rw [hmix, mem_dedupAppend]
    rcases hx with hx | hx
    · exact Or.inl hx
    · exact Or.inr (mem_drain_append x (vertical_proximity_typo value) _ hx)
  · intro _ hvert
    rw [hcommon, hmix, drain_append_empty (vertical_proximity_typo value) hvert]

/-- C4 witness: the superset part instantiated on "cat" (where both presets
complete without error) and the equality part instantiated on the empty
token (where Proximity-Typo yields nothing). -/
theorem claim_C4_witness :
    (∀ x ∈ (common "cat".toList).out, x ∈ (mix "cat".toList).out) ∧
      (common []).out = (mix []).out :=
  ⟨(claim_C4 "cat".toList).1 (by decide) (by decide),
    (claim_C4 []).2 (by decide) (by decide)⟩

/-- C8 counterexample: the single-space token contains a whitespace
character, yet `swapped_letter` terminates normally with no variants and
raises nothing (its loop breaks before any whitespace check once no
adjacent pair exists), contradicting the claim that every generator raises
the whitespace error on such tokens. -/
theorem claim_C8_counterexample :
    (' ').isWhitespace = true ∧ swapped_letter [' '] = ⟨[], none⟩ := by
  decide

/-- C8 amended: for every token containing a whitespace character,
`dropped_letter` raises the whitespace error; `swapped_letter` raises it
when the token has at least two characters but terminates normally with no
variants on tokens of length at most one; `swapped_casing` and
`proximity_typo` raise it provided every character is either whitespace or
supported (cased, respectively present in the layout table) — otherwise
the unsupported-character error can fire at an earlier position instead.
Validation stays interleaved with production: on "ca t" each of the four
generators yields exactly the valid variants of the positions before the
space and then raises the whitespace error. -/
theorem claim_C8_amended :
    (∀ value : List Char, (∃ c ∈ value, c.isWhitespace = true) →
      (dropped_letter value).result = some OneawayError.whitespace) ∧
    (∀ value : List Char, 2 ≤ value.length →
      (∃ c ∈ value, c.isWhitespace = true) →
      (swapped_letter value).result = some OneawayError.whitespace) ∧
    (∀ value : List Char, value.length ≤ 1 → swapped_letter value = ⟨[], none⟩) ∧
    (∀ value : List Char, (∃ c ∈ value, c.isWhitespace = true) →
      (∀ c ∈ value, c.isWhitespace = true ∨ (swapCase c).isSome = true) →
      (swapped_casing value).result = some OneawayError.whitespace) ∧
    (∀ (value : List Char) (layout : Proximities),
      (∃ c ∈ value, c.isWhitespace = true) →
      (∀ c ∈ value, c.isWhitespace = true ∨
        (layout.value.lookup c).isSome = true) →
      (proximity_typo value layout).result = some OneawayError.whitespace) ∧
    dropped_letter "ca t".toList =
      ⟨["a t".toList, "c t".toList], some OneawayError.whitespace⟩ ∧
    swapped_letter "ca t".toList =
      ⟨["ac t".toList], some OneawayError.whitespace⟩ ∧
    swapped_casing "ca t".toList =
      ⟨["Ca t".toList, "cA t".toList], some OneawayError.whitespace⟩ ∧
    proximity_typo "ca t".toList Proximities.QWERTY_HORIZONTAL =
      ⟨["xa t".toList, "va t".toList, "cs t".toList],
        some OneawayError.whitespace⟩ := by
  refine ⟨?_, ?_, ?_, ?_, ?_, by decide, by decide, by decide, by decide⟩
  · intro value h
    exact droppedGo_ws value value 0 [] h
  · intro value hlen h
    exact swappedGo_ws value value 0 [] hlen h
  · exact fun value h => swapped_letter_short value h
  · intro value hex hall
    exact casingGo_ws value value [] hex hall
  · intro value layout hex hall
    exact proximityGo_ws value layout value [] hex hall

/-- C8 witness: the general parts of the amended claim instantiated on the
concrete whitespace-containing token "a b". -/
theorem claim_C8_witness :
    (dropped_letter "a b".toList).result = some OneawayError.whitespace ∧
      (swapped_letter "a b".toList).result = some OneawayError.whitespace ∧
      swapped_letter [' '] = ⟨[], none⟩ ∧
      (swapped_casing "a b".toList).result = some OneawayError.whitespace ∧
      (proximity_typo "a b".toList Proximities.QWERTY_VERTICAL).result =
        some OneawayError.whitespace :=
  ⟨claim_C8_amended.1 "a b".toList (by decide),
    claim_C8_amended.2.1 "a b".toList (by decide) (by decide),
    claim_C8_amended.2.2.1 [' '] (by decide),
    claim_C8_amended.2.2.2.1 "a b".toList (by decide) (by decide),
    claim_C8_amended.2.2.2.2.1 "a b".toList Proximities.QWERTY_VERTICAL
      (by decide) (by decide)⟩

end Oneaway
